import Mathlib

/-!
Shallow embedding of the Shannon–Fano coder in src/Algorithm_Fano/alg_fano.py
(class FanoEncoder) and proofs of the specified properties.

Conventions of the embedding:
* a Python str is a List Char;
* Python float probabilities are modelled as exact rationals ℚ;
* a Python dict is an association list in insertion order; assignment
  d[k] = v is dictSet (update in place if the key is present, append new
  keys at the end) and lookup is dlookup, mirroring dict semantics;
* the recursion of _fano_recursive (and the derived functions codeOf and
  fanoDepth) is driven by an explicit fuel argument so that the functions
  are structurally recursive and kernel-evaluable.  Every entry point
  passes enough fuel for the recursion to run to completion exactly as the
  Python recursion does; the lemmas assume that much fuel.  With fuel 0 the
  functions return their accumulator unchanged, which also matches the
  Python call on an empty ranked list, where e = -1 < 0 = b returns at once.
-/

/-- Python dict assignment d[k] = v: replace the binding in place if the key
is present, append it otherwise (Python dicts keep insertion order). -/
def dictSet {α β : Type} [DecidableEq α] : List (α × β) → α → β → List (α × β)
  | [], k, v => [(k, v)]
  | (k', v') :: d, k, v => if k' = k then (k, v) :: d else (k', v') :: dictSet d k v

/-- Python dict lookup d[k] (none models a KeyError). -/
def dlookup {α β : Type} [DecidableEq α] : List (α × β) → α → Option β
  | [], _ => none
  | (k, v) :: d, c => if k = c then some v else dlookup d c

/-- The keys of a modelled dict, in insertion order. -/
def dkeys {α β : Type} (d : List (α × β)) : List α := d.map Prod.fst

/-- Helper for firstOccs: keep the first occurrence of each element not yet
seen. -/
def firstOccsAux (seen : List Char) : List Char → List Char
  | [] => []
  | c :: rest =>
    if c ∈ seen then firstOccsAux seen rest
    else c :: firstOccsAux (c :: seen) rest

/-- The distinct characters of the text in order of first occurrence: the key
order of Counter(self.text), since Python dicts keep insertion order. -/
def firstOccs (text : List Char) : List Char := firstOccsAux [] text

/-- The unsorted probability list
probs = [(char, count / total) for char, count in counter.items()]
of _calculate_probabilities, with exact rational division. -/
def countProbs (text : List Char) : List (Char × ℚ) :=
  (firstOccs text).map (fun c => (c, (text.count c : ℚ) / (text.length : ℚ)))

/-- Stable insertion into a descending-by-probability list: the new element
goes before the first element whose probability is not larger. -/
def insertDesc (x : Char × ℚ) : List (Char × ℚ) → List (Char × ℚ)
  | [] => [x]
  | y :: rest => if x.2 ≥ y.2 then x :: y :: rest else y :: insertDesc x rest

/-- Stable sort, descending by probability.  Python list.sort with
key = probability and reverse = True is a stable descending sort; any stable
descending sort computes the same list, and foldr insertion with insertDesc
is one (the element processed last, i.e. the earliest one, is placed before
all elements of equal probability). -/
def sortDesc (l : List (Char × ℚ)) : List (Char × ℚ) := l.foldr insertDesc []

/-- _calculate_probabilities: count occurrences, divide by the length, sort
descending by probability (stable). -/
def calculate_probabilities (text : List Char) : List (Char × ℚ) :=
  sortDesc (countProbs text)

/-- The character stored at index i of the ranked list (probs[i][0]); the
default value is irrelevant, every use is in bounds. -/
def pchr (probs : List (Char × ℚ)) (i : Nat) : Char := (probs.getD i ('a', 0)).1

/-- The probability stored at index i of the ranked list (probs[i][1]). -/
def pprob (probs : List (Char × ℚ)) (i : Nat) : ℚ := (probs.getD i ('a', 0)).2

/-- The scanning loop of _med over m = b, ..., e-1, carrying left_sum,
min_diff and best_m.  The initial min_diff = float inf is modelled as none:
every difference compares strictly below it. -/
def medGo (probs : List (Char × ℚ)) (totalSum : ℚ) :
    List Nat → ℚ → Option ℚ → Nat → Nat
  | [], _, _, bestM => bestM
  | m :: ms, leftSum, minDiff, bestM =>
    let leftSum' := leftSum + pprob probs m
    let rightSum := totalSum - leftSum'
    let diff := |leftSum' - rightSum|
    match minDiff with
    | none => medGo probs totalSum ms leftSum' (some diff) m
    | some d =>
      if diff < d then medGo probs totalSum ms leftSum' (some diff) m
      else medGo probs totalSum ms leftSum' (some d) bestM

/-- _med: if b >= e return b, otherwise scan m = b, ..., e-1 and return the
first index minimising the absolute difference between the mass of
probs[b..m] and the mass of probs[m+1..e].  total_sum is the mass of
probs[b:e+1], i.e. of (probs.drop b).take (e + 1 - b). -/
def med (probs : List (Char × ℚ)) (b e : Nat) : Nat :=
  if b ≥ e then b
  else
    medGo probs ((((probs.drop b).take (e + 1 - b)).map Prod.snd).sum)
      (List.range' b (e - b)) 0 none b

/-- One of the two assignment loops of _fano_recursive:
for i in ixs, codes[probs[i][0]] = w. -/
def assignLoop (probs : List (Char × ℚ)) (codes : List (Char × List Char))
    (ixs : List Nat) (w : List Char) : List (Char × List Char) :=
  ixs.foldl (fun d i => dictSet d (pchr probs i) w) codes

/-- _fano_recursive: with e < b do nothing; with e = b assign the single
symbol the current code (or the one-digit code 0 when the current code is
empty, since the empty string is falsy); otherwise split at m = med, assign
the tentative codes current_code + 0 on [b, m] and current_code + 1 on
[m+1, e] (these are overwritten by the recursive calls), then recurse left
and right.  The fuel argument only drives the structural recursion; the
range shrinks strictly at every recursive call, so fuel = e + 1 - b (or
anything larger) reproduces the Python recursion exactly. -/
def fano_recursive (probs : List (Char × ℚ)) :
    Nat → List (Char × List Char) → Nat → Nat → List Char → List (Char × List Char)
  | 0, codes, _, _, _ => codes
  | fuel + 1, codes, b, e, cur =>
    if e < b then codes
    else if e = b then dictSet codes (pchr probs b) (if cur = [] then ['0'] else cur)
    else
      let m := med probs b e
      let codes1 := assignLoop probs codes (List.range' b (m + 1 - b)) (cur ++ ['0'])
      let codes2 := assignLoop probs codes1 (List.range' (m + 1) (e - m)) (cur ++ ['1'])
      let codes3 := fano_recursive probs fuel codes2 b m (cur ++ ['0'])
      fano_recursive probs fuel codes3 (m + 1) e (cur ++ ['1'])

/-- _build_codes, the code-table part: run the Fano recursion over the full
range [0, len(probs) - 1] starting from the empty dict.  For an empty text
the ranked list is empty and the fuel is 0, so the result is the empty dict,
exactly as the Python call with e = -1. -/
def build_codes (text : List Char) : List (Char × List Char) :=
  fano_recursive (calculate_probabilities text) (calculate_probabilities text).length
    [] 0 ((calculate_probabilities text).length - 1) []

/-- _build_codes, the probability-table part: self.probabilities is filled
from the ranked list in order. -/
def probabilitiesTable (text : List Char) : List (Char × ℚ) :=
  (calculate_probabilities text).foldl (fun d p => dictSet d p.1 p.2) []

/-- encode: concatenate the code of every character of the text, in order;
a character without a code would raise a KeyError, modelled by none. -/
def encode (codes : List (Char × List Char)) : List Char → Option (List Char)
  | [] => some []
  | c :: rest =>
    match dlookup codes c with
    | some w => (encode codes rest).map (fun enc => w ++ enc)
    | none => none

/-- The reverse dict of decode:
reverse_codes = (code : char for char, code in self.codes.items()). -/
def reverse_codes (codes : List (Char × List Char)) : List (List Char × Char) :=
  codes.foldl (fun d p => dictSet d p.2 p.1) []

/-- The bit loop of decode: extend the accumulated candidate code word by one
bit; when it matches a code word exactly, emit the symbol and reset the
accumulator.  At the end of the input the accumulator is dropped. -/
def decodeGo (rev : List (List Char × Char)) (decoded : List Char) (current : List Char) :
    List Char → List Char
  | [] => decoded
  | bit :: rest =>
    match dlookup rev (current ++ [bit]) with
    | some ch => decodeGo rev (decoded ++ [ch]) [] rest
    | none => decodeGo rev decoded (current ++ [bit]) rest

/-- decode: build the reverse dict, scan the bit string with an empty
accumulator, and join the decoded symbols. -/
def decode (codes : List (Char × List Char)) (encoded : List Char) : List Char :=
  decodeGo (reverse_codes codes) [] [] encoded

/-- The code word that the Fano recursion on [b, e] with current code cur
finally assigns to the symbol at index i (for b ≤ i ≤ e): follow the med
splits down to the singleton holding i.  The fuel mirrors fano_recursive. -/
def codeOf (probs : List (Char × ℚ)) :
    Nat → Nat → Nat → List Char → Nat → List Char
  | 0, _, _, cur, _ => if cur = [] then ['0'] else cur
  | fuel + 1, b, e, cur, i =>
    if e ≤ b then (if cur = [] then ['0'] else cur)
    else
      let m := med probs b e
      if i ≤ m then codeOf probs fuel b m (cur ++ ['0']) i
      else codeOf probs fuel (m + 1) e (cur ++ ['1']) i

/-- The recursion depth of _fano_recursive on the range [b, e]: a call that
does not recurse is one stack frame; a splitting call adds one frame on top
of the deeper of its two recursive calls. -/
def fanoDepth (probs : List (Char × ℚ)) : Nat → Nat → Nat → Nat
  | 0, _, _ => 1
  | fuel + 1, b, e =>
    if e ≤ b then 1
    else 1 + max (fanoDepth probs fuel b (med probs b e))
      (fanoDepth probs fuel (med probs b e + 1) e)

/-- u is an initial segment of v (executable). -/
def isPfx : List Char → List Char → Bool
  | [], _ => true
  | _, [] => false
  | a :: u, b :: v => a == b && isPfx u v

/-- The mass of the k entries of the ranked list starting at index i. -/
def massLen (probs : List (Char × ℚ)) (i k : Nat) : ℚ :=
  (((probs.drop i).take k).map Prod.snd).sum

/-- The cumulative probability mass of the inclusive index range [i, j]. -/
def massRange (probs : List (Char × ℚ)) (i j : Nat) : ℚ :=
  massLen probs i (j + 1 - i)

/-- The quantity _med minimises at a split point m of [b, e]: the absolute
difference between the mass of [b, m] and the mass of [m+1, e]. -/
def splitDiff (probs : List (Char × ℚ)) (b e m : Nat) : ℚ :=
  |massRange probs b m - massRange probs (m + 1) e|

/-! ### Dict lemmas -/

theorem dlookup_dictSet {α β : Type} [DecidableEq α] (d : List (α × β)) (k c : α) (v : β) :
    dlookup (dictSet d k v) c = if k = c then some v else dlookup d c := by
  induction d with
  | nil => simp [dictSet, dlookup]
  | cons p d ih =>
    obtain ⟨k', v'⟩ := p
    by_cases hk : k' = k
    · subst hk
      by_cases hc : k' = c <;> simp [dictSet, dlookup, hc]
    · simp only [dictSet, if_neg hk, dlookup, ih]
      by_cases hc : k' = c
      · have hkc : ¬ k = c := fun h => hk (hc.trans h.symm)
        simp [hc, hkc]
      · simp [hc]

theorem mem_dkeys_dictSet {α β : Type} [DecidableEq α] (d : List (α × β)) (k c : α) (v : β) :
    c ∈ dkeys (dictSet d k v) ↔ c = k ∨ c ∈ dkeys d := by
  induction d with
  | nil => simp [dictSet, dkeys]
  | cons p d ih =>
    obtain ⟨k', v'⟩ := p
    by_cases hk : k' = k
    · subst hk
      simp [dictSet, dkeys]
    · simp [dictSet, dkeys, hk] at ih ⊢
      tauto

theorem nodup_dkeys_dictSet {α β : Type} [DecidableEq α] (d : List (α × β)) (k : α) (v : β)
    (h : (dkeys d).Nodup) : (dkeys (dictSet d k v)).Nodup := by
  induction d with
  | nil => simp [dictSet, dkeys]
  | cons p d ih =>
    obtain ⟨k', v'⟩ := p
    simp only [dkeys, List.map_cons, List.nodup_cons] at h
    by_cases hk : k' = k
    · subst hk
      simpa [dictSet, dkeys, List.nodup_cons] using h
    · have h1 := ih h.2
      simp only [dictSet, if_neg hk, dkeys, List.map_cons, List.nodup_cons]
      refine ⟨?_, h1⟩
      intro hmem
      rcases (mem_dkeys_dictSet d k k' v).1 hmem with h2 | h2
      · exact hk h2
      · exact h.1 h2

theorem dlookup_mem {α β : Type} [DecidableEq α] {d : List (α × β)} {c : α} {v : β}
    (h : dlookup d c = some v) : (c, v) ∈ d := by
  induction d with
  | nil => simp [dlookup] at h
  | cons p d ih =>
    obtain ⟨k', v'⟩ := p
    by_cases hk : k' = c
    · subst hk
      simp [dlookup] at h
      simp [h]
    · simp only [dlookup, if_neg hk] at h
      exact List.mem_cons_of_mem _ (ih h)

theorem dlookup_isSome_of_mem_dkeys {α β : Type} [DecidableEq α] {d : List (α × β)} {c : α}
    (h : c ∈ dkeys d) : (dlookup d c).isSome := by
  induction d with
  | nil => simp [dkeys] at h
  | cons p d ih =>
    obtain ⟨k', v'⟩ := p
    by_cases hk : k' = c
    · simp [dlookup, hk]
    · simp only [dkeys, List.map_cons, List.mem_cons] at h
      rcases h with h | h

      · exact absurd h.symm hk
      · simp only [dlookup, if_neg hk]
        exact ih h

theorem mem_dkeys_of_dlookup {α β : Type} [DecidableEq α] {d : List (α × β)} {c : α} {v : β}
    (h : dlookup d c = some v) : c ∈ dkeys d := by
  have := dlookup_mem h
  simp only [dkeys, List.mem_map]
  exact ⟨(c, v), this, rfl⟩

theorem mem_dlookup {α β : Type} [DecidableEq α] {d : List (α × β)} {c : α} {v : β}
    (hnd : (dkeys d).Nodup) (h : (c, v) ∈ d) : dlookup d c = some v := by
  induction d with
  | nil => simp at h
  | cons p d ih =>
    obtain ⟨k', v'⟩ := p
    simp only [dkeys, List.map_cons, List.nodup_cons] at hnd
    rcases List.mem_cons.1 h with h1 | h1
    · rw [← h1]
      simp [dlookup]
    · have hne : ¬ k' = c := by
        intro he
        subst he
        exact hnd.1 (List.mem_map.2 ⟨(k', v), h1, rfl⟩)
      simp only [dlookup, if_neg hne]
      exact ih hnd.2 h1

/-! ### Ranked-list lemmas: first occurrences, stable descending sort -/

theorem mem_firstOccsAux (l : List Char) : ∀ (seen : List Char) (c : Char),
    c ∈ firstOccsAux seen l ↔ c ∈ l ∧ c ∉ seen := by
  induction l with
  | nil => intro seen c; simp [firstOccsAux]
  | cons a l ih =>
    intro seen c
    by_cases ha : a ∈ seen
    · simp only [firstOccsAux, if_pos ha, ih, List.mem_cons]
      constructor
      · rintro ⟨h1, h2⟩
        exact ⟨Or.inr h1, h2⟩
      · rintro ⟨h1 | h1, h2⟩
        · exact absurd (h1 ▸ ha) h2
        · exact ⟨h1, h2⟩
    · simp only [firstOccsAux, if_neg ha, List.mem_cons, ih]
      by_cases hca : c = a
      · subst hca
        simp [ha]
      · simp [hca]

theorem nodup_firstOccsAux (l : List Char) : ∀ seen : List Char, (firstOccsAux seen l).Nodup := by
  induction l with
  | nil => intro seen; simp [firstOccsAux]
  | cons a l ih =>
    intro seen
    by_cases ha : a ∈ seen
    · simpa [firstOccsAux, ha] using ih seen
    · simp only [firstOccsAux, if_neg ha, List.nodup_cons]
      refine ⟨?_, ih _⟩
      intro hmem
      exact ((mem_firstOccsAux l _ a).1 hmem).2 (List.mem_cons_self a seen)

theorem mem_firstOccs (text : List Char) (c : Char) : c ∈ firstOccs text ↔ c ∈ text := by
  simp [firstOccs, mem_firstOccsAux]

theorem nodup_firstOccs (text : List Char) : (firstOccs text).Nodup :=
  nodup_firstOccsAux text []

theorem mem_insertDesc (x y : Char × ℚ) (l : List (Char × ℚ)) :
    y ∈ insertDesc x l ↔ y = x ∨ y ∈ l := by
  induction l with
  | nil => simp [insertDesc]
  | cons z l ih =>
    by_cases h : x.2 ≥ z.2
    · simp [insertDesc, h]
    · simp [insertDesc, h, ih]
      tauto

theorem perm_insertDesc (x : Char × ℚ) (l : List (Char × ℚ)) :
    List.Perm (insertDesc x l) (x :: l) := by
  induction l with
  | nil => simp [insertDesc]
  | cons z l ih =>
    by_cases h : x.2 ≥ z.2
    · simp [insertDesc, h]
    · simp only [insertDesc, if_neg h]
      exact (ih.cons z).trans (List.Perm.swap x z l)

theorem sorted_insertDesc (x : Char × ℚ) (l : List (Char × ℚ))
    (h : l.Pairwise (fun p q => q.2 ≤ p.2)) :
    (insertDesc x l).Pairwise (fun p q => q.2 ≤ p.2) := by
  induction l with
  | nil => simp [insertDesc]
  | cons z l ih =>
    rcases List.pairwise_cons.1 h with ⟨hz, hl⟩
    by_cases hx : x.2 ≥ z.2
    · simp only [insertDesc, if_pos hx]
      refine List.pairwise_cons.2 ⟨?_, h⟩
      intro q hq
      rcases List.mem_cons.1 hq with rfl | hq
      · exact hx
      · exact le_trans (hz q hq) hx
    · simp only [insertDesc, if_neg hx]
      refine List.pairwise_cons.2 ⟨?_, ih hl⟩
      intro q hq
      rcases (mem_insertDesc x q l).1 hq with rfl | hq
      · exact le_of_lt (lt_of_not_ge hx)
      · exact hz q hq

theorem filter_insertDesc (qv : ℚ) (x : Char × ℚ) (l : List (Char × ℚ)) :
    (insertDesc x l).filter (fun p => decide (p.2 = qv)) =
      (if x.2 = qv then [x] else []) ++ l.filter (fun p => decide (p.2 = qv)) := by
  induction l with
  | nil => by_cases hx : x.2 = qv <;> simp [insertDesc, hx]
  | cons z l ih =>
    by_cases hz : x.2 ≥ z.2
    · simp only [insertDesc, if_pos hz]
      by_cases hx : x.2 = qv <;> simp [List.filter_cons, hx]
    · simp only [insertDesc, if_neg hz]
      by_cases hzq : z.2 = qv
      · have hxq : ¬ x.2 = qv := fun h => hz (ge_of_eq (h.trans hzq.symm))
        simp [List.filter_cons, hzq, ih, hxq]
      · simp [List.filter_cons, hzq, ih]

theorem perm_sortDesc (l : List (Char × ℚ)) : List.Perm (sortDesc l) l := by
  induction l with
  | nil => simp [sortDesc]
  | cons x l ih =>
    have h : sortDesc (x :: l) = insertDesc x (sortDesc l) := rfl
    rw [h]
    exact (perm_insertDesc x (sortDesc l)).trans (ih.cons x)

theorem sorted_sortDesc (l : List (Char × ℚ)) :
    (sortDesc l).Pairwise (fun p q => q.2 ≤ p.2) := by
  induction l with
  | nil => simp [sortDesc]
  | cons x l ih => exact sorted_insertDesc x (sortDesc l) ih

theorem filter_sortDesc (qv : ℚ) (l : List (Char × ℚ)) :
    (sortDesc l).filter (fun p => decide (p.2 = qv)) =
      l.filter (fun p => decide (p.2 = qv)) := by
  induction l with
  | nil => rfl
  | cons x l ih =>
    have h : sortDesc (x :: l) = insertDesc x (sortDesc l) := rfl
    rw [h, filter_insertDesc]
    by_cases hx : x.2 = qv <;> simp [List.filter_cons, hx, ih]

theorem map_fst_countProbs (text : List Char) :
    (countProbs text).map Prod.fst = firstOccs text := by
  rw [countProbs, List.map_map]
  show List.map (fun c => c) (firstOccs text) = firstOccs text
  exact List.map_id' (firstOccs text)

theorem mem_countProbs (text : List Char) (c : Char) (p : ℚ) :
    (c, p) ∈ countProbs text ↔
      c ∈ text ∧ p = (text.count c : ℚ) / (text.length : ℚ) := by
  simp only [countProbs, List.mem_map, Prod.mk.injEq]
  constructor
  · rintro ⟨a, ha, rfl, rfl⟩
    exact ⟨(mem_firstOccs text a).1 ha, rfl⟩
  · rintro ⟨hc, rfl⟩
    exact ⟨c, (mem_firstOccs text c).2 hc, rfl, rfl⟩

theorem mem_calculate_probabilities (text : List Char) (c : Char) (p : ℚ) :
    (c, p) ∈ calculate_probabilities text ↔
      c ∈ text ∧ p = (text.count c : ℚ) / (text.length : ℚ) := by
  rw [calculate_probabilities, (perm_sortDesc (countProbs text)).mem_iff]
  exact mem_countProbs text c p

theorem nodup_fst_calculate_probabilities (text : List Char) :
    ((calculate_probabilities text).map Prod.fst).Nodup := by
  have hperm := (perm_sortDesc (countProbs text)).map Prod.fst
  rw [calculate_probabilities]
  rw [hperm.nodup_iff, map_fst_countProbs]
  exact nodup_firstOccs text

theorem length_calculate_probabilities (text : List Char) :
    (calculate_probabilities text).length = (firstOccs text).length := by
  rw [calculate_probabilities, (perm_sortDesc (countProbs text)).length_eq, countProbs,
    List.length_map]

theorem calculate_probabilities_ne_nil (text : List Char) (h : text ≠ []) :
    calculate_probabilities text ≠ [] := by
  intro hnil
  have h1 : (calculate_probabilities text).length = 0 := by rw [hnil]; rfl
  rw [length_calculate_probabilities] at h1
  have h2 : ∃ c, c ∈ text := by
    cases text with
    | nil => exact absurd rfl h
    | cons a l => exact ⟨a, List.mem_cons_self a l⟩
  obtain ⟨c, hc⟩ := h2
  have h3 : c ∈ firstOccs text := (mem_firstOccs text c).2 hc
  rw [List.length_eq_zero] at h1
  rw [h1] at h3
  simp at h3

/-! ### Mass and split-point lemmas -/

theorem massLen_zero (probs : List (Char × ℚ)) (i : Nat) : massLen probs i 0 = 0 := by
  simp [massLen]

theorem massLen_add (probs : List (Char × ℚ)) (i k1 k2 : Nat) :
    massLen probs i (k1 + k2) = massLen probs i k1 + massLen probs (i + k1) k2 := by
  have h : (probs.drop i).drop k1 = probs.drop (i + k1) := List.drop_drop k1 i probs
  rw [massLen, massLen, massLen, List.take_add, List.map_append, List.sum_append, h]

theorem massLen_succ (probs : List (Char × ℚ)) (i k : Nat) (h : i + k < probs.length) :
    massLen probs i (k + 1) = massLen probs i k + pprob probs (i + k) := by
  rw [massLen_add]
  congr 1
  rw [massLen, pprob, List.drop_eq_getElem_cons h]
  rw [List.getD_eq_getElem probs ('a', 0) h]
  simp only [List.take_succ_cons, List.take_zero, List.map_cons, List.map_nil,
    List.sum_cons, List.sum_nil, add_zero]

theorem massRange_succ_left (probs : List (Char × ℚ)) (b j : Nat) (hbj : b ≤ j)
    (hlen : j < probs.length) :
    massRange probs b j = massLen probs b (j - b) + pprob probs j := by
  have h2 : b + (j - b) = j := by omega
  have h3 : j + 1 - b = (j - b) + 1 := by omega
  rw [massRange, h3, massLen_succ probs b (j - b) (by omega)]
  rw [h2]

theorem massRange_split (probs : List (Char × ℚ)) (b j e : Nat) (hbj : b ≤ j) (hje : j < e) :
    massRange probs b e = massRange probs b j + massRange probs (j + 1) e := by
  have h1 : e + 1 - b = (j + 1 - b) + (e - j) := by omega
  have h2 : b + (j + 1 - b) = j + 1 := by omega
  have h3 : e + 1 - (j + 1) = e - j := by omega
  rw [massRange, massRange, massRange, h1, massLen_add, h2, h3]

theorem medGo_mem (probs : List (Char × ℚ)) (totalSum : ℚ) :
    ∀ (ms : List Nat) (leftSum : ℚ) (minDiff : Option ℚ) (bestM : Nat),
      medGo probs totalSum ms leftSum minDiff bestM = bestM ∨
        medGo probs totalSum ms leftSum minDiff bestM ∈ ms := by
  intro ms
  induction ms with
  | nil => intro leftSum minDiff bestM; exact Or.inl rfl
  | cons m ms ih =>
    intro leftSum minDiff bestM
    cases minDiff with
    | none =>
      simp only [medGo]
      rcases ih _ _ _ with h | h
      · exact Or.inr (by rw [h]; exact List.mem_cons_self m ms)
      · exact Or.inr (List.mem_cons_of_mem m h)
    | some d =>
      simp only [medGo]
      by_cases hlt : |leftSum + pprob probs m - (totalSum - (leftSum + pprob probs m))| < d
      · rw [if_pos hlt]
        rcases ih _ _ _ with h | h
        · exact Or.inr (by rw [h]; exact List.mem_cons_self m ms)
        · exact Or.inr (List.mem_cons_of_mem m h)
      · rw [if_neg hlt]
        rcases ih _ _ _ with h | h
        · exact Or.inl h
        · exact Or.inr (List.mem_cons_of_mem m h)

theorem le_med (probs : List (Char × ℚ)) (b e : Nat) : b ≤ med probs b e := by
  rw [med]
  by_cases h : b ≥ e
  · rw [if_pos h]
  · rw [if_neg h]
    rcases medGo_mem probs _ (List.range' b (e - b)) 0 none b with h1 | h1
    · exact le_of_eq h1.symm
    · exact (List.mem_range'_1.1 h1).1

theorem med_lt (probs : List (Char × ℚ)) (b e : Nat) (h : b < e) : med probs b e < e := by
  rw [med, if_neg (by omega : ¬ b ≥ e)]
  rcases medGo_mem probs _ (List.range' b (e - b)) 0 none b with h1 | h1
  · rw [h1]
    exact h
  · have h2 := (List.mem_range'_1.1 h1).2
    omega

/-- Loop invariant of the scan in _med after the indices b, ..., j-1 have
been processed: either nothing was processed yet (min_diff is still the
initial infinity), or best_m is the first minimiser among them. -/
def MedInv (probs : List (Char × ℚ)) (b e j : Nat) (minDiff : Option ℚ) (bestM : Nat) : Prop :=
  (minDiff = none ∧ j = b ∧ bestM = b) ∨
    (∃ d, minDiff = some d ∧ b ≤ bestM ∧ bestM < j ∧ d = splitDiff probs b e bestM ∧
      (∀ m, b ≤ m → m < j → d ≤ splitDiff probs b e m) ∧
      (∀ m, b ≤ m → m < bestM → d < splitDiff probs b e m))

/-- What _med computes on a non-degenerate range: an in-range index that is
the first minimiser of the split difference. -/
def MedOut (probs : List (Char × ℚ)) (b e r : Nat) : Prop :=
  b ≤ r ∧ r < e ∧ (∀ m, b ≤ m → m < e → splitDiff probs b e r ≤ splitDiff probs b e m) ∧
    (∀ m, b ≤ m → m < r → splitDiff probs b e r < splitDiff probs b e m)

theorem medGo_inv (probs : List (Char × ℚ)) (b e : Nat) (hb : b < e) (hlen : e < probs.length) :
    ∀ (n j : Nat) (minDiff : Option ℚ) (bestM : Nat),
      b ≤ j → j + n = e → MedInv probs b e j minDiff bestM →
      MedOut probs b e
        (medGo probs (massRange probs b e) (List.range' j n)
          (massLen probs b (j - b)) minDiff bestM) := by
  intro n
  induction n with
  | zero =>
    intro j minDiff bestM hbj hje hinv
    have hj : j = e := by omega
    subst hj
    rcases hinv with ⟨_, hjb, _⟩ | ⟨d, hd, h1, h2, h3, h4, h5⟩
    · omega
    · subst hd
      simp only [List.range', medGo]
      refine ⟨h1, by omega, ?_, ?_⟩
      · intro m hm1 hm2
        rw [← h3]
        exact h4 m hm1 hm2
      · intro m hm1 hm2
        rw [← h3]
        exact h5 m hm1 hm2
  | succ n ihn =>
    intro j minDiff bestM hbj hje hinv
    have hjlen : j < probs.length := by omega
    have hje2 : j < e := by omega
    have hls : massLen probs b (j - b) + pprob probs j = massLen probs b (j + 1 - b) := by
      have h2 : b + (j - b) = j := by omega
      have h3 : j + 1 - b = (j - b) + 1 := by omega
      rw [h3, massLen_succ probs b (j - b) (by omega)]
      rw [h2]
    have hdiff : |massLen probs b (j - b) + pprob probs j -
        (massRange probs b e - (massLen probs b (j - b) + pprob probs j))| =
        splitDiff probs b e j := by
      have h1 : massLen probs b (j - b) + pprob probs j = massRange probs b j :=
        (massRange_succ_left probs b j hbj hjlen).symm
      rw [h1, massRange_split probs b j e hbj hje2, splitDiff]
      ring_nf
    rw [List.range'_succ j n 1]
    cases minDiff with
    | none =>
      rcases hinv with ⟨_, hjb, hbm⟩ | ⟨d, hd, _⟩
      · simp only [medGo]
        rw [hdiff, hls]
        refine ihn (j + 1) (some (splitDiff probs b e j)) j (by omega) (by omega) ?_
        refine Or.inr ⟨splitDiff probs b e j, rfl, hbj, by omega, rfl, ?_, ?_⟩
        · intro m hm1 hm2
          have hm : m = j := by omega
          rw [hm]
        · intro m hm1 hm2
          exact absurd hm2 (by omega)
      · cases hd
    | some d =>
      rcases hinv with ⟨hd, _, _⟩ | ⟨d', hd, hbm1, hbm2, hd3, h4, h5⟩
      · cases hd
      · have hdd : d = d' := Option.some.inj hd
        subst hdd
        simp only [medGo]
        rw [hdiff, hls]
        by_cases hlt : splitDiff probs b e j < d
        · rw [if_pos hlt]
          refine ihn (j + 1) (some (splitDiff probs b e j)) j (by omega) (by omega) ?_
          refine Or.inr ⟨splitDiff probs b e j, rfl, hbj, by omega, rfl, ?_, ?_⟩
          · intro m hm1 hm2
            by_cases hm : m = j
            · rw [hm]
            · exact le_trans (le_of_lt hlt) (h4 m hm1 (by omega))
          · intro m hm1 hm2
            exact lt_of_lt_of_le hlt (h4 m hm1 hm2)
        · rw [if_neg hlt]
          refine ihn (j + 1) (some d) bestM (by omega) (by omega) ?_
          refine Or.inr ⟨d, rfl, hbm1, by omega, hd3, ?_, h5⟩
          intro m hm1 hm2
          by_cases hm : m = j
          · rw [hm]
            exact le_of_not_lt hlt
          · exact h4 m hm1 (by omega)

theorem med_out (probs : List (Char × ℚ)) (b e : Nat) (hb : b < e) (hlen : e < probs.length) :
    MedOut probs b e (med probs b e) := by
  rw [med, if_neg (by omega : ¬ b ≥ e)]
  have h0 : (0 : ℚ) = massLen probs b (b - b) := by
    rw [Nat.sub_self, massLen_zero]
  have htot : (((probs.drop b).take (e + 1 - b)).map Prod.snd).sum = massRange probs b e := rfl
  rw [htot, h0]
  exact medGo_inv probs b e hb hlen (e - b) b none b (le_refl b) (by omega)
    (Or.inl ⟨rfl, rfl, rfl⟩)

/-! ### isPfx and codeOf lemmas -/

theorem isPfx_iff (u v : List Char) : isPfx u v = true ↔ ∃ t, u ++ t = v := by
  induction u generalizing v with
  | nil => simp [isPfx]
  | cons a u ih =>
    cases v with
    | nil => simp [isPfx]
    | cons b v =>
      simp only [isPfx, Bool.and_eq_true, beq_iff_eq, ih]
      constructor
      · rintro ⟨rfl, t, rfl⟩
        exact ⟨t, rfl⟩
      · rintro ⟨t, ht⟩
        injection ht with h1 h2
        exact ⟨h1, t, h2⟩

theorem isPfx_self (u : List Char) : isPfx u u = true :=
  (isPfx_iff u u).2 ⟨[], by simp⟩

theorem codeOf_ne_nil (probs : List (Char × ℚ)) :
    ∀ (fuel b e : Nat) (cur : List Char) (i : Nat), codeOf probs fuel b e cur i ≠ [] := by
  intro fuel
  induction fuel with
  | zero =>
    intro b e cur i
    by_cases h : cur = [] <;> simp [codeOf, h]
  | succ fuel ih =>
    intro b e cur i
    by_cases hbe : e ≤ b
    · by_cases h : cur = [] <;> simp [codeOf, hbe, h]
    · simp only [codeOf, if_neg hbe]
      by_cases hi : i ≤ med probs b e
      · rw [if_pos hi]
        exact ih b (med probs b e) (cur ++ ['0']) i
      · rw [if_neg hi]
        exact ih (med probs b e + 1) e (cur ++ ['1']) i

theorem codeOf_pfx (probs : List (Char × ℚ)) :
    ∀ (fuel b e : Nat) (cur : List Char) (i : Nat),
      ∃ t, cur ++ t = codeOf probs fuel b e cur i := by
  intro fuel
  induction fuel with
  | zero =>
    intro b e cur i
    by_cases h : cur = []
    · subst h
      exact ⟨['0'], by simp [codeOf]⟩
    · exact ⟨[], by simp [codeOf, h]⟩
  | succ fuel ih =>
    intro b e cur i
    by_cases hbe : e ≤ b
    · by_cases h : cur = []
      · subst h
        exact ⟨['0'], by simp [codeOf, hbe]⟩
      · exact ⟨[], by simp [codeOf, hbe, h]⟩
    · simp only [codeOf, if_neg hbe]
      by_cases hi : i ≤ med probs b e
      · rw [if_pos hi]
        obtain ⟨t, ht⟩ := ih b (med probs b e) (cur ++ ['0']) i
        exact ⟨'0' :: t, by rw [← ht]; simp⟩
      · rw [if_neg hi]
        obtain ⟨t, ht⟩ := ih (med probs b e + 1) e (cur ++ ['1']) i
        exact ⟨'1' :: t, by rw [← ht]; simp⟩

theorem codeOf_digits (probs : List (Char × ℚ)) :
    ∀ (fuel b e : Nat) (cur : List Char) (i : Nat) (x : Char),
      x ∈ codeOf probs fuel b e cur i → x ∈ cur ∨ x = '0' ∨ x = '1' := by
  intro fuel
  induction fuel with
  | zero =>
    intro b e cur i x hx
    by_cases h : cur = []
    · subst h
      simp [codeOf] at hx
      exact Or.inr (Or.inl hx)
    · simp [codeOf, h] at hx
      exact Or.inl hx
  | succ fuel ih =>
    intro b e cur i x hx
    by_cases hbe : e ≤ b
    · by_cases h : cur = []
      · subst h
        simp [codeOf, hbe] at hx
        exact Or.inr (Or.inl hx)
      · simp [codeOf, hbe, h] at hx
        exact Or.inl hx
    · simp only [codeOf, if_neg hbe] at hx
      by_cases hi : i ≤ med probs b e
      · rw [if_pos hi] at hx
        rcases ih b (med probs b e) (cur ++ ['0']) i x hx with h1 | h1
        · rcases List.mem_append.1 h1 with h2 | h2
          · exact Or.inl h2
          · simp at h2
            exact Or.inr (Or.inl h2)
        · exact Or.inr h1
      · rw [if_neg hi] at hx
        rcases ih (med probs b e + 1) e (cur ++ ['1']) i x hx with h1 | h1
        · rcases List.mem_append.1 h1 with h2 | h2
          · exact Or.inl h2
          · simp at h2
            exact Or.inr (Or.inr h2)
        · exact Or.inr h1

theorem codeOf_free (probs : List (Char × ℚ)) :
    ∀ (fuel b e : Nat) (cur : List Char) (i j : Nat),
      e - b < fuel → b ≤ i → i ≤ e → b ≤ j → j ≤ e → i ≠ j →
      ¬ isPfx (codeOf probs fuel b e cur i) (codeOf probs fuel b e cur j) = true := by
  intro fuel
  induction fuel with
  | zero =>
    intro b e cur i j hfuel
    exact absurd hfuel (by omega)
  | succ fuel ih =>
    intro b e cur i j hfuel hbi hie hbj hje hij hpfx
    by_cases hbe : e ≤ b
    · exact hij (by omega)
    · have hblt : b < e := by omega
      have hm1 := le_med probs b e
      have hm2 := med_lt probs b e hblt
      simp only [codeOf, if_neg hbe] at hpfx
      by_cases hi : i ≤ med probs b e <;> by_cases hj : j ≤ med probs b e
      · rw [if_pos hi, if_pos hj] at hpfx
        exact ih b (med probs b e) (cur ++ ['0']) i j (by omega) hbi hi hbj hj hij hpfx
      · rw [if_pos hi, if_neg hj] at hpfx
        obtain ⟨t1, ht1⟩ := codeOf_pfx probs fuel b (med probs b e) (cur ++ ['0']) i
        obtain ⟨t2, ht2⟩ := codeOf_pfx probs fuel (med probs b e + 1) e (cur ++ ['1']) j
        obtain ⟨t3, ht3⟩ := (isPfx_iff _ _).1 hpfx
        rw [← ht1, ← ht2] at ht3
        have h4 : cur ++ ('0' :: (t1 ++ t3)) = cur ++ ('1' :: t2) := by
          simpa [List.append_assoc] using ht3
        have h5 := List.append_cancel_left h4
        simp at h5
      · rw [if_neg hi, if_pos hj] at hpfx
        obtain ⟨t1, ht1⟩ := codeOf_pfx probs fuel (med probs b e + 1) e (cur ++ ['1']) i
        obtain ⟨t2, ht2⟩ := codeOf_pfx probs fuel b (med probs b e) (cur ++ ['0']) j
        obtain ⟨t3, ht3⟩ := (isPfx_iff _ _).1 hpfx
        rw [← ht1, ← ht2] at ht3
        have h4 : cur ++ ('1' :: (t1 ++ t3)) = cur ++ ('0' :: t2) := by
          simpa [List.append_assoc] using ht3
        have h5 := List.append_cancel_left h4
        simp at h5
      · rw [if_neg hi, if_neg hj] at hpfx
        exact ih (med probs b e + 1) e (cur ++ ['1']) i j (by omega) (by omega) hie
          (by omega) hje hij hpfx

theorem codeOf_inj (probs : List (Char × ℚ)) (fuel b e : Nat) (cur : List Char) (i j : Nat)
    (hfuel : e - b < fuel) (hbi : b ≤ i) (hie : i ≤ e) (hbj : b ≤ j) (hje : j ≤ e)
    (hij : i ≠ j) : codeOf probs fuel b e cur i ≠ codeOf probs fuel b e cur j := by
  intro heq
  exact codeOf_free probs fuel b e cur i j hfuel hbi hie hbj hje hij
    (heq ▸ isPfx_self (codeOf probs fuel b e cur i))

/-! ### fano_recursive lemmas -/

theorem dlookup_assignLoop_frame (probs : List (Char × ℚ)) (w : List Char) (c : Char) :
    ∀ (ixs : List Nat) (codes : List (Char × List Char)),
      (∀ i ∈ ixs, pchr probs i ≠ c) →
      dlookup (assignLoop probs codes ixs w) c = dlookup codes c := by
  intro ixs
  induction ixs with
  | nil => intro codes _; rfl
  | cons i ixs ih =>
    intro codes h
    have h1 : assignLoop probs codes (i :: ixs) w =
        assignLoop probs (dictSet codes (pchr probs i) w) ixs w := rfl
    rw [h1, ih _ (fun j hj => h j (List.mem_cons_of_mem i hj))]
    rw [dlookup_dictSet]
    rw [if_neg (h i (List.mem_cons_self i ixs))]

theorem nodup_dkeys_assignLoop (probs : List (Char × ℚ)) (w : List Char) :
    ∀ (ixs : List Nat) (codes : List (Char × List Char)),
      (dkeys codes).Nodup → (dkeys (assignLoop probs codes ixs w)).Nodup := by
  intro ixs
  induction ixs with
  | nil => intro codes h; exact h
  | cons i ixs ih =>
    intro codes h
    exact ih _ (nodup_dkeys_dictSet codes (pchr probs i) w h)

theorem pchr_inj (probs : List (Char × ℚ)) (hnd : (probs.map Prod.fst).Nodup)
    (i j : Nat) (hi : i < probs.length) (hj : j < probs.length) (hij : i ≠ j) :
    pchr probs i ≠ pchr probs j := by
  intro he
  rw [pchr, pchr, List.getD_eq_getElem probs ('a', 0) hi,
    List.getD_eq_getElem probs ('a', 0) hj] at he
  have hg : (probs.map Prod.fst).get ⟨i, by simpa using hi⟩ =
      (probs.map Prod.fst).get ⟨j, by simpa using hj⟩ := by
    simp only [List.get_eq_getElem, List.getElem_map]
    exact he
  have h2 := List.nodup_iff_injective_get.1 hnd hg
  exact hij (by simpa using congrArg Fin.val h2)

theorem dlookup_fano_frame (probs : List (Char × ℚ)) (c : Char) :
    ∀ (fuel : Nat) (codes : List (Char × List Char)) (b e : Nat) (cur : List Char),
      (∀ i, b ≤ i → i ≤ e → pchr probs i ≠ c) →
      dlookup (fano_recursive probs fuel codes b e cur) c = dlookup codes c := by
  intro fuel
  induction fuel with
  | zero => intro codes b e cur _; rfl
  | succ fuel ih =>
    intro codes b e cur h
    by_cases hlt : e < b
    · simp [fano_recursive, hlt]
    · by_cases heq : e = b
      · simp only [fano_recursive, if_neg hlt, if_pos heq]
        rw [dlookup_dictSet, if_neg (h b (le_refl b) (by omega))]
      · simp only [fano_recursive, if_neg hlt, if_neg heq]
        have hble : b < e := by omega
        have hm1 := le_med probs b e
        have hm2 := med_lt probs b e hble
        have hc3 : ∀ i, med probs b e + 1 ≤ i → i ≤ e → pchr probs i ≠ c :=
          fun i h1 h2 => h i (by omega) h2
        have hc2 : ∀ i, b ≤ i → i ≤ med probs b e → pchr probs i ≠ c :=
          fun i h1 h2 => h i h1 (by omega)
        have hl2 : ∀ i ∈ List.range' (med probs b e + 1) (e - med probs b e),
            pchr probs i ≠ c := by
          intro i hi
          have h3 := List.mem_range'_1.1 hi
          exact h i (by omega) (by omega)
        have hl1 : ∀ i ∈ List.range' b (med probs b e + 1 - b), pchr probs i ≠ c := by
          intro i hi
          have h3 := List.mem_range'_1.1 hi
          exact h i (by omega) (by omega)
        rw [ih _ (med probs b e + 1) e (cur ++ ['1']) hc3]
        rw [ih _ b (med probs b e) (cur ++ ['0']) hc2]
        rw [dlookup_assignLoop_frame probs (cur ++ ['1']) c _ _ hl2]
        rw [dlookup_assignLoop_frame probs (cur ++ ['0']) c _ _ hl1]

theorem dlookup_fano_assign (probs : List (Char × ℚ)) (hnd : (probs.map Prod.fst).Nodup) :
    ∀ (fuel : Nat) (codes : List (Char × List Char)) (b e : Nat) (cur : List Char) (i : Nat),
      e - b < fuel → e < probs.length → b ≤ i → i ≤ e →
      dlookup (fano_recursive probs fuel codes b e cur) (pchr probs i) =
        some (codeOf probs fuel b e cur i) := by
  intro fuel
  induction fuel with
  | zero =>
    intro codes b e cur i hfuel
    exact absurd hfuel (by omega)
  | succ fuel ih =>
    intro codes b e cur i hfuel hlen hbi hie
    by_cases hlt : e < b
    · exact absurd hie (by omega)
    · by_cases heq : e = b
      · have hib : i = b := by omega
        subst hib
        simp only [fano_recursive, if_neg hlt, if_pos heq]
        rw [dlookup_dictSet, if_pos rfl]
        simp only [codeOf]
        rw [if_pos (by omega : e ≤ i)]
      · have hble : b < e := by omega
        have hm1 := le_med probs b e
        have hm2 := med_lt probs b e hble
        simp only [fano_recursive, if_neg hlt, if_neg heq]
        by_cases hi : i ≤ med probs b e
        · have hfr : ∀ j, med probs b e + 1 ≤ j → j ≤ e → pchr probs j ≠ pchr probs i := by
            intro j h1 h2
            exact pchr_inj probs hnd j i (by omega) (by omega) (by omega)
          rw [dlookup_fano_frame probs (pchr probs i) fuel _ (med probs b e + 1) e
            (cur ++ ['1']) hfr]
          rw [ih _ b (med probs b e) (cur ++ ['0']) i (by omega) (by omega) hbi hi]
          simp only [codeOf]
          rw [if_neg (by omega : ¬ e ≤ b), if_pos hi]
        · rw [ih _ (med probs b e + 1) e (cur ++ ['1']) i (by omega) hlen (by omega) hie]
          simp only [codeOf]
          rw [if_neg (by omega : ¬ e ≤ b), if_neg hi]

theorem nodup_dkeys_fano (probs : List (Char × ℚ)) :
    ∀ (fuel : Nat) (codes : List (Char × List Char)) (b e : Nat) (cur : List Char),
      (dkeys codes).Nodup → (dkeys (fano_recursive probs fuel codes b e cur)).Nodup := by
  intro fuel
  induction fuel with
  | zero => intro codes b e cur h; exact h
  | succ fuel ih =>
    intro codes b e cur h
    by_cases hlt : e < b
    · simpa [fano_recursive, hlt] using h
    · by_cases heq : e = b
      · simp only [fano_recursive, if_neg hlt, if_pos heq]
        exact nodup_dkeys_dictSet codes _ _ h
      · simp only [fano_recursive, if_neg hlt, if_neg heq]
        exact ih _ _ _ _ (ih _ _ _ _ (nodup_dkeys_assignLoop probs _ _ _
          (nodup_dkeys_assignLoop probs _ _ _ h)))

/-! ### build_codes characterisation -/

theorem nodup_dkeys_build_codes (text : List Char) : (dkeys (build_codes text)).Nodup := by
  rw [build_codes]
  exact nodup_dkeys_fano _ _ _ _ _ _ (by simp [dkeys])

theorem exists_idx_of_mem (text : List Char) (c : Char) (h : c ∈ text) :
    ∃ i, i < (calculate_probabilities text).length ∧
      pchr (calculate_probabilities text) i = c := by
  have hp := (mem_calculate_probabilities text c
    ((text.count c : ℚ) / (text.length : ℚ))).2 ⟨h, rfl⟩
  obtain ⟨i, hi⟩ := List.mem_iff_get.1 hp
  refine ⟨i.1, i.2, ?_⟩
  rw [pchr, List.getD_eq_getElem _ ('a', 0) i.2]
  rw [List.get_eq_getElem] at hi
  rw [hi]

theorem pchr_mem_text (text : List Char) (i : Nat)
    (hi : i < (calculate_probabilities text).length) :
    pchr (calculate_probabilities text) i ∈ text := by
  have hmem : (calculate_probabilities text).get ⟨i, hi⟩ ∈ calculate_probabilities text :=
    List.get_mem _ _ hi
  obtain ⟨h1, _⟩ := (mem_calculate_probabilities text
    ((calculate_probabilities text).get ⟨i, hi⟩).1
    ((calculate_probabilities text).get ⟨i, hi⟩).2).1 (by simpa using hmem)
  rw [pchr, List.getD_eq_getElem _ ('a', 0) hi]
  rw [List.get_eq_getElem] at h1
  exact h1

theorem build_codes_lookup_of_idx (text : List Char) (i : Nat)
    (hi : i < (calculate_probabilities text).length) :
    dlookup (build_codes text) (pchr (calculate_probabilities text) i) =
      some (codeOf (calculate_probabilities text) (calculate_probabilities text).length 0
        ((calculate_probabilities text).length - 1) [] i) := by
  rw [build_codes]
  exact dlookup_fano_assign _ (nodup_fst_calculate_probabilities text) _ _ _ _ _ _
    (by omega) (by omega) (by omega) (by omega)

theorem build_codes_covers (text : List Char) (c : Char) (h : c ∈ text) :
    (dlookup (build_codes text) c).isSome := by
  obtain ⟨i, hi1, hi2⟩ := exists_idx_of_mem text c h
  rw [← hi2, build_codes_lookup_of_idx text i hi1]
  rfl

theorem build_codes_lookup_some (text : List Char) (c : Char) (w : List Char)
    (h : dlookup (build_codes text) c = some w) :
    ∃ i, i < (calculate_probabilities text).length ∧
      pchr (calculate_probabilities text) i = c ∧
      w = codeOf (calculate_probabilities text) (calculate_probabilities text).length 0
        ((calculate_probabilities text).length - 1) [] i := by
  have hex : ¬ (∀ i, 0 ≤ i → i ≤ (calculate_probabilities text).length - 1 →
      pchr (calculate_probabilities text) i ≠ c) := by
    intro hall
    rw [build_codes] at h
    rw [dlookup_fano_frame _ _ _ _ _ _ _ hall] at h
    simp [dlookup] at h
  push_neg at hex
  obtain ⟨i, _, hi2, hi3⟩ := hex
  have hlen0 : calculate_probabilities text ≠ [] := by
    intro hnil
    rw [build_codes, hnil] at h
    simp [fano_recursive, dlookup] at h
  have hlen1 : 0 < (calculate_probabilities text).length :=
    List.length_pos.2 hlen0
  have hi4 : i < (calculate_probabilities text).length := by omega
  have hassign := build_codes_lookup_of_idx text i hi4
  rw [hi3] at hassign
  rw [hassign] at h
  exact ⟨i, hi4, hi3, (Option.some.inj h).symm⟩

/-! ### encode and decode lemmas -/

theorem encode_isSome (codes : List (Char × List Char)) :
    ∀ (l : List Char), (∀ c ∈ l, (dlookup codes c).isSome) →
      ∃ enc, encode codes l = some enc := by
  intro l
  induction l with
  | nil => intro _; exact ⟨[], rfl⟩
  | cons c l ih =>
    intro h
    obtain ⟨w, hw⟩ := Option.isSome_iff_exists.1 (h c (List.mem_cons_self c l))
    obtain ⟨enc, henc⟩ := ih (fun x hx => h x (List.mem_cons_of_mem c hx))
    exact ⟨w ++ enc, by simp [encode, hw, henc]⟩

theorem dlookup_revGo_frame (u : List Char) :
    ∀ (ps : List (Char × List Char)) (d : List (List Char × Char)),
      (∀ p ∈ ps, p.2 ≠ u) →
      dlookup (ps.foldl (fun d p => dictSet d p.2 p.1) d) u = dlookup d u := by
  intro ps
  induction ps with
  | nil => intro d _; rfl
  | cons p ps ih =>
    intro d h
    rw [List.foldl_cons, ih _ (fun q hq => h q (List.mem_cons_of_mem p hq))]
    rw [dlookup_dictSet]
    rw [if_neg (h p (List.mem_cons_self p ps))]

theorem dlookup_revGo_keep (u : List Char) (c : Char) :
    ∀ (ps : List (Char × List Char)) (d : List (List Char × Char)),
      (∀ p ∈ ps, p.2 = u → p.1 = c) →
      dlookup d u = some c →
      dlookup (ps.foldl (fun d p => dictSet d p.2 p.1) d) u = some c := by
  intro ps
  induction ps with
  | nil => intro d _ h2; exact h2
  | cons p ps ih =>
    intro d h h2
    rw [List.foldl_cons]
    refine ih _ (fun q hq hqu => h q (List.mem_cons_of_mem p hq) hqu) ?_
    rw [dlookup_dictSet]
    by_cases hp : p.2 = u
    · rw [if_pos hp, h p (List.mem_cons_self p ps) hp]
    · rw [if_neg hp]
      exact h2

theorem dlookup_reverse_codes_none (codes : List (Char × List Char)) (u : List Char)
    (h : ∀ p ∈ codes, p.2 ≠ u) : dlookup (reverse_codes codes) u = none := by
  rw [reverse_codes, dlookup_revGo_frame u codes [] h]
  rfl

theorem dlookup_reverse_codes_some (codes : List (Char × List Char)) (c : Char)
    (w : List Char) (hmem : (c, w) ∈ codes)
    (hinj : ∀ p ∈ codes, p.2 = w → p.1 = c) :
    dlookup (reverse_codes codes) w = some c := by
  rw [reverse_codes]
  obtain ⟨s, t, rfl⟩ := List.append_of_mem hmem
  rw [List.foldl_append, List.foldl_cons]
  refine dlookup_revGo_keep w c t _
    (fun q hq hqu =>
      hinj q (List.mem_append.2 (Or.inr (List.mem_cons_of_mem _ hq))) hqu) ?_
  rw [dlookup_dictSet]
  rw [if_pos rfl]

theorem decodeGo_scan (rev : List (List Char × Char)) :
    ∀ (w : List Char) (cur rest decoded : List Char) (ch : Char),
      w ≠ [] →
      (∀ k, k + 1 < w.length → dlookup rev (cur ++ w.take (k + 1)) = none) →
      dlookup rev (cur ++ w) = some ch →
      decodeGo rev decoded cur (w ++ rest) = decodeGo rev (decoded ++ [ch]) [] rest := by
  intro w
  induction w with
  | nil => intro cur rest decoded ch hne; exact absurd rfl hne
  | cons b w ih =>
    intro cur rest decoded ch _ hnone hsome
    cases w with
    | nil =>
      simp only [List.cons_append, List.nil_append, decodeGo]
      rw [hsome]
      rfl
    | cons b2 w2 =>
      simp only [List.cons_append, decodeGo]
      have h0 := hnone 0 (by simp)
      simp only [List.take_succ_cons, List.take_zero] at h0
      rw [h0]
      refine ih (cur ++ [b]) rest decoded ch (by simp) ?_ ?_
      · intro k hk
        have h1 := hnone (k + 1) (by simp at hk ⊢; omega)
        simpa [List.append_assoc] using h1
      · simpa [List.append_assoc] using hsome

theorem decodeGo_encode (codes : List (Char × List Char))
    (_hnd : (dkeys codes).Nodup)
    (hne : ∀ p ∈ codes, p.2 ≠ ([] : List Char))
    (hpf : ∀ p ∈ codes, ∀ q ∈ codes, (∃ t, p.2 ++ t = q.2) → p.2 = q.2)
    (hinj : ∀ p ∈ codes, ∀ q ∈ codes, p.2 = q.2 → p.1 = q.1) :
    ∀ (l enc decoded : List Char), encode codes l = some enc →
      decodeGo (reverse_codes codes) decoded [] enc = decoded ++ l := by
  intro l
  induction l with
  | nil =>
    intro enc decoded h
    have henc : enc = [] := by
      simp only [encode] at h
      exact (Option.some.inj h).symm
    rw [henc]
    simp [decodeGo]
  | cons c l ih =>
    intro enc decoded h
    cases hw : dlookup codes c with
    | none => simp [encode, hw] at h
    | some w =>
      simp only [encode, hw] at h
      cases henc : encode codes l with
      | none =>
        rw [henc] at h
        simp at h
      | some enc2 =>
        rw [henc] at h
        simp only [Option.map_some'] at h
        have henc2 : enc = w ++ enc2 := (Option.some.inj h).symm
        rw [henc2]
        have hcw : (c, w) ∈ codes := dlookup_mem hw
        have hwne : w ≠ [] := hne (c, w) hcw
        rw [decodeGo_scan (reverse_codes codes) w [] enc2 decoded c hwne ?_ ?_]
        · rw [ih enc2 (decoded ++ [c]) henc]
          simp
        · intro k hk
          apply dlookup_reverse_codes_none
          intro p hp hpu
          simp only [List.nil_append] at hpu
          have h1 : ∃ t, p.2 ++ t = w :=
            ⟨w.drop (k + 1), by rw [hpu]; exact List.take_append_drop (k + 1) w⟩
          have h2 := hpf p hp (c, w) hcw h1
          have h3 : p.2.length = k + 1 := by
            rw [hpu, List.length_take]
            omega
          rw [h2] at h3
          simp at h3
          omega
        · simp only [List.nil_append]
          exact dlookup_reverse_codes_some codes c w hcw
            (fun p hp hpw => hinj p hp (c, w) hcw (by rw [hpw]))

/-! ### The built table is injective, has non-empty code words, and no code
word is an initial segment of another -/

theorem build_codes_values_ne_nil (text : List Char) :
    ∀ p ∈ build_codes text, p.2 ≠ ([] : List Char) := by
  intro p hp
  have hp' : (p.1, p.2) ∈ build_codes text := by rwa [Prod.mk.eta]
  have hl : dlookup (build_codes text) p.1 = some p.2 :=
    mem_dlookup (nodup_dkeys_build_codes text) hp'
  obtain ⟨i, hi1, hi2, hi3⟩ := build_codes_lookup_some text p.1 p.2 hl
  rw [hi3]
  exact codeOf_ne_nil _ _ _ _ _ _

theorem build_codes_pf (text : List Char) :
    ∀ p ∈ build_codes text, ∀ q ∈ build_codes text,
      (∃ t, p.2 ++ t = q.2) → p.2 = q.2 := by
  intro p hp q hq hpq
  have hp' : (p.1, p.2) ∈ build_codes text := by rwa [Prod.mk.eta]
  have hq' : (q.1, q.2) ∈ build_codes text := by rwa [Prod.mk.eta]
  have hlp : dlookup (build_codes text) p.1 = some p.2 :=
    mem_dlookup (nodup_dkeys_build_codes text) hp'
  have hlq : dlookup (build_codes text) q.1 = some q.2 :=
    mem_dlookup (nodup_dkeys_build_codes text) hq'
  obtain ⟨i, hi1, hi2, hi3⟩ := build_codes_lookup_some text p.1 p.2 hlp
  obtain ⟨j, hj1, hj2, hj3⟩ := build_codes_lookup_some text q.1 q.2 hlq
  by_cases hij : i = j
  · rw [hi3, hj3, hij]
  · exfalso
    apply codeOf_free (calculate_probabilities text) (calculate_probabilities text).length
      0 ((calculate_probabilities text).length - 1) [] i j (by omega) (by omega)
      (by omega) (by omega) (by omega) hij
    apply (isPfx_iff _ _).2
    rw [← hi3, ← hj3]
    exact hpq

theorem build_codes_inj (text : List Char) :
    ∀ p ∈ build_codes text, ∀ q ∈ build_codes text, p.2 = q.2 → p.1 = q.1 := by
  intro p hp q hq hpq
  have hp' : (p.1, p.2) ∈ build_codes text := by rwa [Prod.mk.eta]
  have hq' : (q.1, q.2) ∈ build_codes text := by rwa [Prod.mk.eta]
  have hlp : dlookup (build_codes text) p.1 = some p.2 :=
    mem_dlookup (nodup_dkeys_build_codes text) hp'
  have hlq : dlookup (build_codes text) q.1 = some q.2 :=
    mem_dlookup (nodup_dkeys_build_codes text) hq'
  obtain ⟨i, hi1, hi2, hi3⟩ := build_codes_lookup_some text p.1 p.2 hlp
  obtain ⟨j, hj1, hj2, hj3⟩ := build_codes_lookup_some text q.1 q.2 hlq
  by_cases hij : i = j
  · rw [← hi2, ← hj2, hij]
  · exfalso
    apply codeOf_inj (calculate_probabilities text) (calculate_probabilities text).length
      0 ((calculate_probabilities text).length - 1) [] i j (by omega) (by omega)
      (by omega) (by omega) (by omega) hij
    rw [← hi3, ← hj3, hpq]

theorem decode_encode_build (text : List Char) (enc : List Char)
    (h : encode (build_codes text) text = some enc) :
    decode (build_codes text) enc = text := by
  rw [decode]
  have h1 := decodeGo_encode (build_codes text) (nodup_dkeys_build_codes text)
    (build_codes_values_ne_nil text) (build_codes_pf text) (build_codes_inj text)
    text enc [] h
  simpa using h1

theorem encode_build_isSome (text : List Char) :
    ∃ enc, encode (build_codes text) text = some enc := by
  apply encode_isSome
  intro c hc
  exact build_codes_covers text c hc

/-! ### Depth bound and probability sums -/

theorem fanoDepth_le (probs : List (Char × ℚ)) :
    ∀ (fuel b e : Nat), b ≤ e → e - b < fuel → fanoDepth probs fuel b e ≤ e + 1 - b := by
  intro fuel
  induction fuel with
  | zero => intro b e _ h; exact absurd h (by omega)
  | succ fuel ih =>
    intro b e hbe0 h
    by_cases hbe : e ≤ b
    · simp only [fanoDepth, if_pos hbe]
      omega
    · have hble : b < e := by omega
      have hm1 := le_med probs b e
      have hm2 := med_lt probs b e hble
      simp only [fanoDepth, if_neg hbe]
      have h1 := ih b (med probs b e) (by omega) (by omega)
      have h2 := ih (med probs b e + 1) e (by omega) (by omega)
      have h3 : max (fanoDepth probs fuel b (med probs b e))
          (fanoDepth probs fuel (med probs b e + 1) e) ≤ e - b := by
        apply max_le
        · omega
        · omega
      have h4 : 1 + (e - b) ≤ e + 1 - b := by omega
      exact le_trans (Nat.add_le_add_left h3 1) h4

theorem sum_countProbs (text : List Char) (h : text ≠ []) :
    ((countProbs text).map Prod.snd).sum = 1 := by
  rw [countProbs, List.map_map]
  have h1 : (Prod.snd ∘ fun c => (c, (text.count c : ℚ) / (text.length : ℚ))) =
      fun c => (text.count c : ℚ) / (text.length : ℚ) := rfl
  rw [h1]
  have h2 : ∀ (l : List Char),
      (l.map (fun c => (text.count c : ℚ) / (text.length : ℚ))).sum =
        (l.map (fun c => (text.count c : ℚ))).sum / (text.length : ℚ) := by
    intro l
    induction l with
    | nil => simp
    | cons a l ih =>
      simp only [List.map_cons, List.sum_cons, ih]
      rw [div_add_div_same]
  rw [h2]
  have h3 : ((firstOccs text).map (fun c => (text.count c : ℚ))).sum =
      (((firstOccs text).map (fun c => text.count c)).sum : ℚ) := by
    induction firstOccs text with
    | nil => simp
    | cons a l ih => simp [ih]
  rw [h3]
  have h5 : ((firstOccs text).toFinset.sum fun c => text.count c) =
      ((firstOccs text).map fun c => text.count c).sum :=
    List.sum_toFinset _ (nodup_firstOccs text)
  have h6 : (firstOccs text).toFinset = text.toFinset := by
    ext a
    simp [List.mem_toFinset, mem_firstOccs]
  rw [← h5, h6, List.sum_toFinset_count_eq_length]
  have h7 : (text.length : ℚ) ≠ 0 := by
    intro hh
    have : text.length = 0 := by exact_mod_cast hh
    exact h (List.length_eq_zero.1 this)
  exact div_self h7

theorem sum_calculate_probabilities (text : List Char) (h : text ≠ []) :
    ((calculate_probabilities text).map Prod.snd).sum = 1 := by
  rw [calculate_probabilities]
  rw [List.Perm.sum_eq ((perm_sortDesc (countProbs text)).map Prod.snd)]
  exact sum_countProbs text h

theorem prob_mem_bounds (text : List Char) (c : Char) (p : ℚ)
    (hmem : (c, p) ∈ calculate_probabilities text) : 0 < p ∧ p ≤ 1 := by
  obtain ⟨hc, rfl⟩ := (mem_calculate_probabilities text c p).1 hmem
  have hlen : 0 < text.length := List.length_pos.2 (by rintro rfl; simp at hc)
  have hcount : 0 < text.count c := List.count_pos_iff.2 hc
  constructor
  · apply div_pos
    · exact_mod_cast hcount
    · exact_mod_cast hlen
  · rw [div_le_one (by exact_mod_cast hlen)]
    exact_mod_cast List.count_le_length c text

/-! ### Claim theorems -/

/-- C1: for every non-empty symbol sequence S, with the code table built from
S, encoding succeeds and decoding the encoding returns exactly S. -/
theorem C1_round_trip (text : List Char) (_h : text ≠ []) :
    ∃ enc, encode (build_codes text) text = some enc ∧
      decode (build_codes text) enc = text := by
  obtain ⟨enc, henc⟩ := encode_build_isSome text
  exact ⟨enc, henc, decode_encode_build text enc henc⟩

/-- C1 witness: the round trip at the concrete text aabc. -/
theorem C1_round_trip_witness :
    ∃ enc, encode (build_codes ['a', 'a', 'b', 'c']) ['a', 'a', 'b', 'c'] = some enc ∧
      decode (build_codes ['a', 'a', 'b', 'c']) enc = ['a', 'a', 'b', 'c'] :=
  C1_round_trip ['a', 'a', 'b', 'c'] (by decide)

/-- C2: the built code table is prefix-free: for distinct symbols a and b in
the table, the code word of a is not an initial segment of the code word of
b (and, the statement being symmetric in a and b, vice versa). -/
theorem C2_pfx_free (text : List Char) (a b : Char) (wa wb : List Char)
    (hab : a ≠ b)
    (ha : dlookup (build_codes text) a = some wa)
    (hb : dlookup (build_codes text) b = some wb) :
    isPfx wa wb = false := by
  obtain ⟨i, hi1, hi2, hi3⟩ := build_codes_lookup_some text a wa ha
  obtain ⟨j, hj1, hj2, hj3⟩ := build_codes_lookup_some text b wb hb
  have hij : i ≠ j := by
    intro he
    exact hab (by rw [← hi2, ← hj2, he])
  have h1 := codeOf_free (calculate_probabilities text)
    (calculate_probabilities text).length 0 ((calculate_probabilities text).length - 1)
    [] i j (by omega) (by omega) (by omega) (by omega) (by omega) hij
  rw [hi3, hj3]
  exact Bool.eq_false_iff.2 h1

/-- C2 witness: in the table built from aab, the code of a is not an initial
segment of the code of b. -/
theorem C2_pfx_free_witness : isPfx ['0'] ['1'] = false :=
  C2_pfx_free ['a', 'a', 'b'] 'a' 'b' ['0'] ['1'] (by decide)
    (by with_unfolding_all decide) (by with_unfolding_all decide)

/-- C3: for a non-empty input, the keys of the built table are exactly the
distinct symbols of the input (each exactly once, the key list having no
duplicates), every code word is a non-empty sequence of binary digits, and
the table is one-to-one. -/
theorem C3_coverage (text : List Char) (_h : text ≠ []) :
    (∀ c, c ∈ dkeys (build_codes text) ↔ c ∈ text) ∧
    (dkeys (build_codes text)).Nodup ∧
    (∀ c w, dlookup (build_codes text) c = some w →
      w ≠ [] ∧ ∀ x ∈ w, x = '0' ∨ x = '1') ∧
    (∀ a b w, dlookup (build_codes text) a = some w →
      dlookup (build_codes text) b = some w → a = b) := by
  refine ⟨?_, nodup_dkeys_build_codes text, ?_, ?_⟩
  · intro c
    constructor
    · intro hc
      obtain ⟨w, hw⟩ := Option.isSome_iff_exists.1 (dlookup_isSome_of_mem_dkeys hc)
      obtain ⟨i, hi1, hi2, _⟩ := build_codes_lookup_some text c w hw
      rw [← hi2]
      exact pchr_mem_text text i hi1
    · intro hc
      obtain ⟨w, hw⟩ := Option.isSome_iff_exists.1 (build_codes_covers text c hc)
      exact mem_dkeys_of_dlookup hw
  · intro c w hw
    obtain ⟨i, hi1, hi2, hi3⟩ := build_codes_lookup_some text c w hw
    constructor
    · rw [hi3]
      exact codeOf_ne_nil _ _ _ _ _ _
    · intro x hx
      rw [hi3] at hx
      rcases codeOf_digits _ _ _ _ _ _ x hx with h1 | h1
      · simp at h1
      · exact h1
  · intro a b w hwa hwb
    exact build_codes_inj text (a, w) (dlookup_mem hwa) (b, w) (dlookup_mem hwb) rfl

/-- C3 witness: the coverage and uniqueness properties at the concrete text
aab. -/
theorem C3_coverage_witness :
    (∀ c, c ∈ dkeys (build_codes ['a', 'a', 'b']) ↔ c ∈ ['a', 'a', 'b']) ∧
    (dkeys (build_codes ['a', 'a', 'b'])).Nodup ∧
    (∀ c w, dlookup (build_codes ['a', 'a', 'b']) c = some w →
      w ≠ [] ∧ ∀ x ∈ w, x = '0' ∨ x = '1') ∧
    (∀ a b w, dlookup (build_codes ['a', 'a', 'b']) a = some w →
      dlookup (build_codes ['a', 'a', 'b']) b = some w → a = b) :=
  C3_coverage ['a', 'a', 'b'] (by decide)

/-- C4 counterexample: calling build on the zero-length sequence does not
fail at all: it returns normally, with an empty code table and an empty
probability table, so no EmptyInputError is raised (no such error exists in
the code). -/
theorem C4_counterexample :
    build_codes [] = [] ∧ probabilitiesTable [] = [] := by
  with_unfolding_all decide

/-- C4 amended: on a zero-length sequence, build returns normally and
produces an empty code table and an empty probability table; the code
defines no EmptyInputError and raises nothing. -/
theorem C4_empty_input (text : List Char) (h : text.length = 0) :
    build_codes text = [] ∧ probabilitiesTable text = [] ∧
      calculate_probabilities text = [] := by
  have htext : text = [] := List.length_eq_zero.1 h
  subst htext
  exact ⟨rfl, rfl, rfl⟩

/-- C4 witness: the amended behaviour at the empty sequence itself. -/
theorem C4_empty_input_witness :
    build_codes ([] : List Char) = [] ∧ probabilitiesTable [] = [] ∧
      calculate_probabilities [] = [] :=
  C4_empty_input [] rfl

/-- C5 counterexample: with the table built from aabc (codes a = 0, b = 10,
c = 11), decoding the bit string 101 leaves the non-empty unmatched
accumulator 1 at end of input, and decode silently returns the partial
result b instead of failing with TruncatedStreamError. -/
theorem C5_counterexample :
    decode (build_codes ['a', 'a', 'b', 'c']) ['1', '0', '1'] = ['b'] := by
  with_unfolding_all decide

/-- C5 amended: at end of input the decode loop simply returns the symbols
decoded so far, silently discarding whatever candidate code word has
accumulated; no TruncatedStreamError exists in the code. -/
theorem C5_drops_leftover (rev : List (List Char × Char))
    (decoded current : List Char) :
    decodeGo rev decoded current [] = decoded := rfl

/-- C6: on an inclusive in-bounds range, the split-point search of _med
returns b when b = e, and otherwise an index m with b ≤ m < e minimising
the absolute difference between the cumulative mass of [b, m] and of
[m+1, e], the first such m scanning upward from b winning ties. -/
theorem C6_med_spec (probs : List (Char × ℚ)) (b e : Nat) (_hbe : b ≤ e)
    (hlen : e < probs.length) :
    (b = e → med probs b e = b) ∧
    (b < e →
      b ≤ med probs b e ∧ med probs b e < e ∧
      (∀ k, b ≤ k → k < e →
        splitDiff probs b e (med probs b e) ≤ splitDiff probs b e k) ∧
      (∀ k, b ≤ k → k < med probs b e →
        splitDiff probs b e (med probs b e) < splitDiff probs b e k)) := by
  constructor
  · intro he
    rw [med, if_pos (by omega : b ≥ e)]
  · intro hlt
    exact med_out probs b e hlt hlen

/-- C6 witness: the split-point properties at a concrete three-entry ranked
list. -/
theorem C6_med_spec_witness :
    ((0 : Nat) = 2 → med [('a', (1 : ℚ)/2), ('b', (1 : ℚ)/4), ('c', (1 : ℚ)/4)] 0 2 = 0) ∧
    ((0 : Nat) < 2 →
      0 ≤ med [('a', (1 : ℚ)/2), ('b', (1 : ℚ)/4), ('c', (1 : ℚ)/4)] 0 2 ∧
      med [('a', (1 : ℚ)/2), ('b', (1 : ℚ)/4), ('c', (1 : ℚ)/4)] 0 2 < 2 ∧
      (∀ k, 0 ≤ k → k < 2 →
        splitDiff [('a', (1 : ℚ)/2), ('b', (1 : ℚ)/4), ('c', (1 : ℚ)/4)] 0 2
            (med [('a', (1 : ℚ)/2), ('b', (1 : ℚ)/4), ('c', (1 : ℚ)/4)] 0 2) ≤
          splitDiff [('a', (1 : ℚ)/2), ('b', (1 : ℚ)/4), ('c', (1 : ℚ)/4)] 0 2 k) ∧
      (∀ k, 0 ≤ k → k < med [('a', (1 : ℚ)/2), ('b', (1 : ℚ)/4), ('c', (1 : ℚ)/4)] 0 2 →
        splitDiff [('a', (1 : ℚ)/2), ('b', (1 : ℚ)/4), ('c', (1 : ℚ)/4)] 0 2
            (med [('a', (1 : ℚ)/2), ('b', (1 : ℚ)/4), ('c', (1 : ℚ)/4)] 0 2) <
          splitDiff [('a', (1 : ℚ)/2), ('b', (1 : ℚ)/4), ('c', (1 : ℚ)/4)] 0 2 k)) :=
  C6_med_spec [('a', (1 : ℚ)/2), ('b', (1 : ℚ)/4), ('c', (1 : ℚ)/4)] 0 2
    (by omega) (by decide)

/-- C7: single-symbol alphabet: the table built from aaaa maps a to the
one-digit code 0, encoding aaaa yields 0000, and decoding 0000 yields
aaaa. -/
theorem C7_single_symbol :
    build_codes ['a', 'a', 'a', 'a'] = [('a', ['0'])] ∧
    encode (build_codes ['a', 'a', 'a', 'a']) ['a', 'a', 'a', 'a'] =
      some ['0', '0', '0', '0'] ∧
    decode (build_codes ['a', 'a', 'a', 'a']) ['0', '0', '0', '0'] =
      ['a', 'a', 'a', 'a'] := by
  with_unfolding_all decide

/-- C8: for non-empty input, computeProbabilities assigns every distinct
symbol the probability count/length, each probability lies in (0, 1], the
probabilities sum to 1, and the ranked list is sorted descending by
probability with stable tie-breaking: restricted to any fixed probability
value, the sorted list agrees with the unsorted first-occurrence-ordered
counter list. -/
theorem C8_probabilities (text : List Char) (h : text ≠ []) :
    (∀ c p, (c, p) ∈ calculate_probabilities text →
      p = (text.count c : ℚ) / (text.length : ℚ) ∧ 0 < p ∧ p ≤ 1) ∧
    (∀ c, c ∈ text →
      (c, (text.count c : ℚ) / (text.length : ℚ)) ∈ calculate_probabilities text) ∧
    ((calculate_probabilities text).map Prod.snd).sum = 1 ∧
    (calculate_probabilities text).Pairwise (fun x y => y.2 ≤ x.2) ∧
    (∀ qv : ℚ, (calculate_probabilities text).filter (fun x => decide (x.2 = qv)) =
      (countProbs text).filter (fun x => decide (x.2 = qv))) := by
  refine ⟨?_, ?_, sum_calculate_probabilities text h, ?_, ?_⟩
  · intro c p hmem
    have h1 := (mem_calculate_probabilities text c p).1 hmem
    exact ⟨h1.2, prob_mem_bounds text c p hmem⟩
  · intro c hc
    exact (mem_calculate_probabilities text c _).2 ⟨hc, rfl⟩
  · rw [calculate_probabilities]
    exact sorted_sortDesc _
  · intro qv
    rw [calculate_probabilities]
    exact filter_sortDesc qv _

/-- C8 witness: the probability-table properties at the concrete text ab. -/
theorem C8_probabilities_witness :
    (∀ c p, (c, p) ∈ calculate_probabilities ['a', 'b'] →
      p = (List.count c ['a', 'b'] : ℚ) / ((['a', 'b'] : List Char).length : ℚ) ∧
        0 < p ∧ p ≤ 1) ∧
    (∀ c, c ∈ (['a', 'b'] : List Char) →
      (c, (List.count c ['a', 'b'] : ℚ) / ((['a', 'b'] : List Char).length : ℚ)) ∈
        calculate_probabilities ['a', 'b']) ∧
    ((calculate_probabilities ['a', 'b']).map Prod.snd).sum = 1 ∧
    (calculate_probabilities ['a', 'b']).Pairwise (fun x y => y.2 ≤ x.2) ∧
    (∀ qv : ℚ, (calculate_probabilities ['a', 'b']).filter (fun x => decide (x.2 = qv)) =
      (countProbs ['a', 'b']).filter (fun x => decide (x.2 = qv))) :=
  C8_probabilities ['a', 'b'] (by decide)

/-- C9 counterexample: for the text aaaabbcd the alphabet has four symbols,
so log2 of the alphabet size is 2, yet the recursion depth of the Fano
procedure on its ranked list is 4: the depth is not bounded by log2 of the
alphabet size. -/
theorem C9_counterexample :
    Nat.log2 ((calculate_probabilities ['a', 'a', 'a', 'a', 'b', 'b', 'c', 'd']).length) <
      fanoDepth (calculate_probabilities ['a', 'a', 'a', 'a', 'b', 'b', 'c', 'd'])
        (calculate_probabilities ['a', 'a', 'a', 'a', 'b', 'b', 'c', 'd']).length 0
        ((calculate_probabilities ['a', 'a', 'a', 'a', 'b', 'b', 'c', 'd']).length - 1) := by
  with_unfolding_all decide

/-- C9 amended: the recursion depth of the code-assignment procedure is
bounded by the alphabet size (the length of the ranked list) rather than by
its base-2 logarithm; in particular it depends only on the ranked list, not
on the input sequence length. -/
theorem C9_depth_le (text : List Char) (h : text ≠ []) :
    fanoDepth (calculate_probabilities text) (calculate_probabilities text).length 0
      ((calculate_probabilities text).length - 1) ≤
      (calculate_probabilities text).length := by
  have h1 : 0 < (calculate_probabilities text).length :=
    List.length_pos.2 (calculate_probabilities_ne_nil text h)
  have h2 := fanoDepth_le (calculate_probabilities text)
    (calculate_probabilities text).length 0 ((calculate_probabilities text).length - 1)
    (by omega) (by omega)
  omega

/-- C9 witness: the depth bound at the concrete text ab. -/
theorem C9_depth_le_witness :
    fanoDepth (calculate_probabilities ['a', 'b']) (calculate_probabilities ['a', 'b']).length
      0 ((calculate_probabilities ['a', 'b']).length - 1) ≤
      (calculate_probabilities ['a', 'b']).length :=
  C9_depth_le ['a', 'b'] (by decide)

/-- C10: encode never fails on the text the encoder was constructed from:
code construction assigns a code word to every distinct character of the
text, so every lookup that encode performs succeeds and the KeyError branch
is unreachable. -/
theorem C10_encode_total (text : List Char) :
    (encode (build_codes text) text).isSome = true := by
  obtain ⟨enc, henc⟩ := encode_build_isSome text
  rw [henc]
  rfl
